import Mathlib

/-!
Verification of the KimiK2Manim prerequisite-tree pipeline.

This file shallowly embeds the pipeline core of the repository:

* the `KnowledgeNode` tree (`agents.prerequisite_explorer_kimi.KnowledgeNode`),
  serialized by `InteractiveExplorer._serialize_tree`
  (`e2b_sandbox/interactive_explorer.py`) and deserialized by `_dict_to_node`
  (`test_pipeline_simple.py`);
* the prerequisite Explorer (modelled from the spec, since
  `agents/prerequisite_explorer_kimi.py` is not part of the sources);
* the 3D visual-design enrichment stage (`three_d_design_node` in
  `MinimalSurfaces/run_pipeline.py`);
* the sandbox configuration (`e2b_sandbox/sandbox_config.py`);
* the pipeline driver script (`run_pipeline.py`).

Python dictionaries and JSON documents are represented by a small mutual
`Json` type; the node type mirrors the Python `KnowledgeNode` dataclass with
children as a mutually defined cons list so that structural recursion and
induction are available.
-/

mutual

/-- JSON-like values, standing in for Python dicts/lists/scalars.
`num` carries an `Int` (the repository only ever serializes Python ints
here: `depth` and similar counters). -/
inductive Json where
  | null : Json
  | bool (b : Bool) : Json
  | num (n : Int) : Json
  | str (s : String) : Json
  | arr (xs : JsonList) : Json
  | obj (kvs : JsonObj) : Json
  deriving DecidableEq

inductive JsonList where
  | nil : JsonList
  | cons (hd : Json) (tl : JsonList) : JsonList
  deriving DecidableEq

inductive JsonObj where
  | nil : JsonObj
  | cons (k : String) (v : Json) (tl : JsonObj) : JsonObj
  deriving DecidableEq

end

/-- Lookup of a key in an object, mirroring Python `d[k]` / `d.get(k)`.
The serializer never emits duplicate keys, so first-match lookup agrees
with Python dict semantics. -/
def JsonObj.lookup : JsonObj → String → Option Json
  | .nil, _ => none
  | .cons k v tl, key => if k = key then some v else JsonObj.lookup tl key

/-- Keys of an object, in insertion order (Python dicts preserve it). -/
def JsonObj.keys : JsonObj → List String
  | .nil => []
  | .cons k _ tl => k :: JsonObj.keys tl

/-- Append two objects (used to splice the optional enrichment keys after
the four mandatory keys, exactly as the Python dict is built up). -/
def JsonObj.append : JsonObj → JsonObj → JsonObj
  | .nil, o => o
  | .cons k v tl, o => .cons k v (JsonObj.append tl o)

/-- Convert a Lean list of strings to a JSON array of strings (the shape
`json.dump` gives a Python list of strings such as `equations`). -/
def strListToJson : List String → JsonList
  | [] => .nil
  | s :: rest => .cons (.str s) (strListToJson rest)

/-- Inverse direction: recover a list of strings from a JSON array,
failing on any non-string element. -/
def jsonToStrList : JsonList → Option (List String)
  | .nil => some []
  | .cons (.str s) rest => (jsonToStrList rest).map (fun l => s :: l)
  | .cons _ _ => none

mutual

/-- The `KnowledgeNode` dataclass of `agents.prerequisite_explorer_kimi`,
as used by every caller in the sources: fields `concept`, `depth`,
`is_foundation`, `prerequisites` (child nodes), and the four optional
enrichment fields `equations`, `definitions`, `visual_spec`, `narrative`.
Children are a mutually defined cons list (`NodeList`), isomorphic to the
Python list of child nodes. -/
inductive KnowledgeNode where
  | mk (concept : String) (depth : Nat) (is_foundation : Bool)
       (prerequisites : NodeList)
       (equations : Option (List String))
       (definitions : Option (List String))
       (visual_spec : Option JsonObj)
       (narrative : Option String)
  deriving DecidableEq

inductive NodeList where
  | nil : NodeList
  | cons (hd : KnowledgeNode) (tl : NodeList) : NodeList
  deriving DecidableEq

end

def KnowledgeNode.concept : KnowledgeNode → String
  | .mk c _ _ _ _ _ _ _ => c

def KnowledgeNode.depth : KnowledgeNode → Nat
  | .mk _ d _ _ _ _ _ _ => d

def KnowledgeNode.is_foundation : KnowledgeNode → Bool
  | .mk _ _ f _ _ _ _ _ => f

def KnowledgeNode.prerequisites : KnowledgeNode → NodeList
  | .mk _ _ _ pr _ _ _ _ => pr

def KnowledgeNode.equations : KnowledgeNode → Option (List String)
  | .mk _ _ _ _ eq _ _ _ => eq

def KnowledgeNode.definitions : KnowledgeNode → Option (List String)
  | .mk _ _ _ _ _ df _ _ => df

def KnowledgeNode.visual_spec : KnowledgeNode → Option JsonObj
  | .mk _ _ _ _ _ _ vs _ => vs

def KnowledgeNode.narrative : KnowledgeNode → Option String
  | .mk _ _ _ _ _ _ _ na => na

mutual

/-- All nodes of a tree (the node itself and, recursively, every node of
every prerequisite subtree), as a plain list. -/
def allNodes : KnowledgeNode → List KnowledgeNode
  | .mk c d f pr eq df vs na =>
    KnowledgeNode.mk c d f pr eq df vs na :: allNodesList pr

def allNodesList : NodeList → List KnowledgeNode
  | .nil => []
  | .cons n tl => allNodes n ++ allNodesList tl

end

/-- Python truthiness of an optional list of strings: `if node.equations:`
is `False` both for `None` and for the empty list. -/
def truthyStrList : Option (List String) → Bool
  | none => false
  | some xs => !xs.isEmpty

/-- Python truthiness of an optional dict: `None` and `{}` are falsy. -/
def truthyObj : Option JsonObj → Bool
  | none => false
  | some .nil => false
  | some (.cons _ _ _) => true

/-- Python truthiness of an optional string: `None` and `""` are falsy. -/
def truthyStr : Option String → Bool
  | none => false
  | some s => !(s = "")

/-- The optional enrichment entries of a serialized node: each of the four
keys is added exactly when its field is Python-truthy (the `if
node.equations:` guards of `_serialize_tree`), in source order. -/
def enrichmentObj (eq df : Option (List String)) (vs : Option JsonObj)
    (na : Option String) : JsonObj :=
  JsonObj.append
    (if truthyStrList eq then .cons "equations" (.arr (strListToJson (eq.getD []))) .nil else .nil)
    (JsonObj.append
      (if truthyStrList df then .cons "definitions" (.arr (strListToJson (df.getD []))) .nil else .nil)
      (JsonObj.append
        (if truthyObj vs then .cons "visual_spec" (.obj (vs.getD .nil)) .nil else .nil)
        (if truthyStr na then .cons "narrative" (.str (na.getD "")) .nil else .nil)))

mutual

/-- Embedding of `InteractiveExplorer._serialize_tree`
(`e2b_sandbox/interactive_explorer.py:149-172`).  The Python code builds a
dict with keys `concept`, `depth`, `is_foundation`, `prerequisites` and then
adds each enrichment key guarded by `if node.equations:` etc., i.e. by
truthiness, not by an `is not None` test. -/
def serialize_tree : KnowledgeNode → Json
  | .mk c d f pr eq df vs na =>
    Json.obj (JsonObj.append
      (.cons "concept" (.str c)
        (.cons "depth" (.num d)
          (.cons "is_foundation" (.bool f)
            (.cons "prerequisites" (.arr (serialize_list pr)) .nil))))
      (enrichmentObj eq df vs na))

def serialize_list : NodeList → JsonList
  | .nil => .nil
  | .cons n tl => .cons (serialize_tree n) (serialize_list tl)

end

/-- Decode an optional JSON value into an optional list of strings
(`d.get("equations")` stores the raw JSON value; this models the well-typed
case, failing on a value that is not a list of strings). -/
def decodeOptStrList : Option Json → Option (Option (List String))
  | none => some none
  | some (.arr xs) => (jsonToStrList xs).map some
  | some _ => none

/-- Decode an optional JSON value into an optional dict (`visual_spec`). -/
def decodeOptObj : Option Json → Option (Option JsonObj)
  | none => some none
  | some (.obj o) => some (some o)
  | some _ => none

/-- Decode an optional JSON value into an optional string (`narrative`). -/
def decodeOptStr : Option Json → Option (Option String)
  | none => some none
  | some (.str s) => some (some s)
  | some _ => none

mutual

/-- Embedding of `_dict_to_node` (`test_pipeline_simple.py:25-35`): rebuild a
`KnowledgeNode` from a mapping, reading `concept`, `depth`, `is_foundation`
(required keys), `d.get("prerequisites", [])` recursively, and the four
enrichment fields verbatim via `d.get(...)`, `None` when absent.  The
function is `Option`-valued: `none` models the `KeyError`/ill-typed cases
the dynamically typed Python code would crash or misbehave on. -/
def dict_to_node : Json → Option KnowledgeNode
  | .obj kvs =>
    match kvs.lookup "concept", kvs.lookup "depth", kvs.lookup "is_foundation" with
    | some (.str c), some (.num d), some (.bool f) =>
      if 0 ≤ d then
        match prereqs_of kvs, decodeOptStrList (kvs.lookup "equations"),
              decodeOptStrList (kvs.lookup "definitions"),
              decodeOptObj (kvs.lookup "visual_spec"),
              decodeOptStr (kvs.lookup "narrative") with
        | some pr, some eq, some df, some vs, some na =>
          some (.mk c d.toNat f pr eq df vs na)
        | _, _, _, _, _ => none
      else none
    | _, _, _ => none
  | _ => none

/-- Scan an object for the `prerequisites` key and decode its array of child
nodes; an absent key defaults to the empty child list, mirroring
`d.get("prerequisites", [])`. -/
def prereqs_of : JsonObj → Option NodeList
  | .nil => some .nil
  | .cons k (.arr xs) tl =>
    if k = "prerequisites" then dict_to_list xs else prereqs_of tl
  | .cons k _ tl =>
    if k = "prerequisites" then none else prereqs_of tl

/-- Decode a JSON array of serialized nodes. -/
def dict_to_list : JsonList → Option NodeList
  | .nil => some .nil
  | .cons hd tl =>
    match dict_to_node hd, dict_to_list tl with
    | some n, some ns => some (.cons n ns)
    | _, _ => none

end

mutual

/-- The tree a serialize/deserialize round trip actually reconstructs:
enrichment fields holding a Python-falsy value (`None`, `[]`, `{}`, `""`)
come back as `None`; everything else is unchanged. -/
def normalize_tree : KnowledgeNode → KnowledgeNode
  | .mk c d f pr eq df vs na =>
    .mk c d f (normalize_list pr)
      (if truthyStrList eq then eq else none)
      (if truthyStrList df then df else none)
      (if truthyObj vs then vs else none)
      (if truthyStr na then na else none)

def normalize_list : NodeList → NodeList
  | .nil => .nil
  | .cons n tl => .cons (normalize_tree n) (normalize_list tl)

end

/-- An optional string list is clean when it is `None` or non-empty
(so that Python truthiness agrees with an `is not None` test). -/
def cleanStrList : Option (List String) → Bool
  | none => true
  | some xs => !xs.isEmpty

/-- An optional dict is clean when it is `None` or non-empty. -/
def cleanObj : Option JsonObj → Bool
  | none => true
  | some .nil => false
  | some (.cons _ _ _) => true

/-- An optional string is clean when it is `None` or non-empty. -/
def cleanStr : Option String → Bool
  | none => true
  | some s => !(s = "")

mutual

/-- A tree is clean when no node holds an empty-but-present enrichment
value; on clean trees truthiness-guarded serialization loses nothing. -/
def cleanTree : KnowledgeNode → Bool
  | .mk _ _ _ pr eq df vs na =>
    cleanStrList eq && cleanStrList df && cleanObj vs && cleanStr na && cleanList pr

def cleanList : NodeList → Bool
  | .nil => true
  | .cons n tl => cleanTree n && cleanList tl

end

/-- Key lookup on a JSON value that is an object (used to state which keys
the serializer emits). -/
def objLookupJson : Json → String → Option Json
  | .obj kvs, k => kvs.lookup k
  | _, _ => none

/-- Concrete input refuting the unrestricted round-trip claim: a node whose
Math enrichment ran but produced an empty `equations` list. -/
def emptyEqNode : KnowledgeNode :=
  .mk "pythagorean theorem" 0 true .nil (some []) none none none

/-- What the round trip actually returns for `emptyEqNode`. -/
def emptyEqNodeDropped : KnowledgeNode :=
  .mk "pythagorean theorem" 0 true .nil none none none none

/-- Concrete input showing the serializer omits empty-but-present fields. -/
def emptyEqNode2 : KnowledgeNode :=
  .mk "fourier transform" 1 false .nil (some []) (some []) (some .nil) (some "")

/-- Concept strings of all nodes of a tree, with multiplicity. -/
def treeConcepts (n : KnowledgeNode) : List String :=
  (allNodes n).map KnowledgeNode.concept

/-- Modelled from the spec: the external reasoning service boundary used by
the Explorer (the Explorer itself, `agents/prerequisite_explorer_kimi.py`,
is not among the sources; only its callers are).  `is_foundational c` is
the parsed answer to the per-node "is this a foundational concept?"
request, `prerequisite_list c` the parsed answer to the "list the direct
prerequisite concepts" request; `none` models a call that raises or whose
content cannot be parsed. -/
structure Service where
  is_foundational : String → Option Bool
  prerequisite_list : String → Option (List String)

/-- One request issued to the reasoning service during exploration. -/
inductive Request where
  | foundational_check (concept : String)
  | prereq_request (concept : String)
  deriving DecidableEq

/-- The Explorer's memo: concept string to already-built node. -/
abbrev Memo := List (String × KnowledgeNode)

/-- Membership-style lookup in the memo (Python `if concept in self.memo`).
New entries are consed on, so first match is the most recent entry,
matching Python dict assignment semantics. -/
def memoLookup (memo : Memo) (c : String) : Option KnowledgeNode :=
  (memo.find? (fun p => p.1 == c)).map (fun p => p.2)

/-- Keys present in the memo. -/
def memoKeys (memo : Memo) : List String :=
  memo.map Prod.fst

/-- Number of foundational-check requests for a given concept in a log. -/
def countFound : List Request → String → Nat
  | [], _ => 0
  | .foundational_check d :: tl, c => (if d = c then 1 else 0) + countFound tl c
  | .prereq_request _ :: tl, c => countFound tl c

/-- Number of list-prerequisites requests for a given concept in a log. -/
def countPrereq : List Request → String → Nat
  | [], _ => 0
  | .prereq_request d :: tl, c => (if d = c then 1 else 0) + countPrereq tl c
  | .foundational_check _ :: tl, c => countPrereq tl c

/-- Modelled from the spec: a node marked foundational with no children
(the shape produced for service-confirmed foundations, depth-capped nodes,
and the fail-safe default on service failure). -/
def foundationalLeaf (concept : String) (depth : Nat) : KnowledgeNode :=
  .mk concept depth true .nil none none none none

/-- Fold an exploration step over a list of prerequisite concepts,
threading memo and request log left to right (the Explorer recurses into
the children sequentially). -/
def explore_children
    (f : String → Memo → List Request → (KnowledgeNode × Memo × List Request)) :
    List String → Memo → List Request → (NodeList × Memo × List Request)
  | [], memo, log => (.nil, memo, log)
  | c :: cs, memo, log =>
    let r1 := f c memo log
    let r2 := explore_children f cs r1.2.1 r1.2.2
    (.cons r1.1 r2.1, r2.2.1, r2.2.2)

/-- Modelled from the spec: explore one concept.  `fuel` is the remaining
depth budget, so the node being built sits at depth `max_depth - fuel` and
`fuel = 0` is exactly the `depth == max_depth` ceiling.  The memo is
consulted first; a hit returns the cached subtree with no service call.
On a miss the foundational-check request is issued; if the answer is yes,
unavailable (fail-safe default), or the ceiling is reached, the node
becomes a foundational leaf.  Otherwise the prerequisites request is
issued; an unavailable answer again fails safe to a foundational leaf,
and otherwise the children are explored in discovery order with one less
fuel.  The finished node is recorded in the memo after its subtree
completes (the spec notes the memo only catches cycles through completed
nodes). -/
def explore_go (svc : Service) (max_depth : Nat) :
    Nat → String → Memo → List Request → (KnowledgeNode × Memo × List Request)
  | fuel, concept, memo, log =>
    match memoLookup memo concept with
    | some node => (node, memo, log)
    | none =>
      let log1 := log ++ [Request.foundational_check concept]
      let isF := (svc.is_foundational concept).getD true
      match fuel with
      | 0 =>
        let node := foundationalLeaf concept max_depth
        (node, (concept, node) :: memo, log1)
      | fuel' + 1 =>
        if isF then
          let node := foundationalLeaf concept (max_depth - (fuel' + 1))
          (node, (concept, node) :: memo, log1)
        else
          let log2 := log1 ++ [Request.prereq_request concept]
          match svc.prerequisite_list concept with
          | none =>
            let node := foundationalLeaf concept (max_depth - (fuel' + 1))
            (node, (concept, node) :: memo, log2)
          | some ps =>
            let r := explore_children
              (fun c m l => explore_go svc max_depth fuel' c m l) ps memo log2
            let node := KnowledgeNode.mk concept (max_depth - (fuel' + 1)) false
              r.1 none none none none
            (node, (concept, node) :: r.2.1, r.2.2)

/-- Modelled from the spec: a whole exploration run on a fresh memo,
returning the tree, the final memo, and the request log. -/
def explore (svc : Service) (concept : String) (max_depth : Nat) :
    KnowledgeNode × Memo × List Request :=
  explore_go svc max_depth max_depth concept [] []

/-- Direct prerequisite answer of the service, empty when unavailable. -/
def prereqsOf (svc : Service) (c : String) : List String :=
  (svc.prerequisite_list c).getD []

/-- One prerequisite edge of the service's concept graph. -/
def serviceRel (svc : Service) (c d : String) : Prop :=
  d ∈ prereqsOf svc c

/-- No concept is reachable from itself through prerequisite edges (the
spec leaves cyclic prerequisite graphs an open question). -/
def AcyclicService (svc : Service) : Prop :=
  ∀ c, ¬ Relation.TransGen (serviceRel svc) c c

/-- True when an object contains a key (Python `k in d`). -/
def JsonObj.hasKey : JsonObj → String → Bool
  | .nil, _ => false
  | .cons k _ tl, key => k = key || JsonObj.hasKey tl key

/-- Overwrite the values of keys of `base` that also occur in `upd`,
keeping the original key order (the in-place half of Python `update`). -/
def overwriteVals (upd : JsonObj) : JsonObj → JsonObj
  | .nil => .nil
  | .cons k v tl => .cons k ((upd.lookup k).getD v) (overwriteVals upd tl)

/-- Keys of `upd` that are new to `base`, kept in `upd` order (the
appending half of Python `update`). -/
def newEntries (base : JsonObj) : JsonObj → JsonObj
  | .nil => .nil
  | .cons k v tl =>
    if base.hasKey k then newEntries base tl else .cons k v (newEntries base tl)

/-- Python `base.update(upd)`: existing keys are overwritten in place,
new keys are appended in `upd` order. -/
def dictUpdate (base upd : JsonObj) : JsonObj :=
  JsonObj.append (overwriteVals upd base) (newEntries base upd)

/-- The abstract ingredients of `three_d_design_node`
(`MinimalSurfaces/run_pipeline.py:93-198`) that live in the missing
`agents.enrichment_chain` module.  `payload_for c` is the combined result
of `_extract_tool_payload(response)` followed by the `_parse_json_fallback`
attempt for the chat completion issued for concept `c`; `none` models
"both failed" (the Python code then substitutes `{}` via `or {}`).
`spec_to_dict c p` is `VisualSpec.from_payload(c, p).to_dict()`, kept fully
abstract so every theorem below holds for any behaviour of that missing
helper. -/
structure DesignEnv where
  payload_for : String → Option JsonObj
  spec_to_dict : String → JsonObj → JsonObj

mutual

/-- Embedding of `three_d_design_node` (`MinimalSurfaces/run_pipeline.py:93-198`),
the Visual-stage worker the script installs on the enrichment pipeline.
On a cache hit the node's `visual_spec` (created as `{}` when `None`) is
updated with the cached spec dict and the prerequisites are processed with
the cached spec as parent context; on a miss the service payload is
fetched (empty dict when extraction and fallback both fail), the spec dict
is built, `visual_spec` is updated, the spec is cached, and the
prerequisites are processed.  The prompt strings influence nothing that is
modelled; the returned node reflects the Python in-place mutation. -/
def design_node (env : DesignEnv) :
    KnowledgeNode → Option JsonObj → List (String × JsonObj) →
    KnowledgeNode × List (String × JsonObj)
  | .mk c d f pr eq df vs na, _parent, cache =>
    match (cache.find? (fun p => p.1 == c)).map (fun p => p.2) with
    | some cached =>
      let vs1 := dictUpdate (vs.getD .nil) cached
      let r := design_list env pr (some cached) cache
      (.mk c d f r.1 eq df (some vs1) na, r.2)
    | none =>
      let payload := (env.payload_for c).getD .nil
      let specD := env.spec_to_dict c payload
      let vs1 := dictUpdate (vs.getD .nil) specD
      let cache1 := (c, specD) :: cache
      let r := design_list env pr (some specD) cache1
      (.mk c d f r.1 eq df (some vs1) na, r.2)

/-- Process the prerequisite list sequentially, all children receiving the
same parent spec, the cache threading left to right. -/
def design_list (env : DesignEnv) :
    NodeList → Option JsonObj → List (String × JsonObj) →
    NodeList × List (String × JsonObj)
  | .nil, _, cache => (.nil, cache)
  | .cons n tl, parent, cache =>
    let r1 := design_node env n parent cache
    let r2 := design_list env tl parent r1.2
    (.cons r1.1 r2.1, r2.2)

end

/-- The `SandboxMode` enum (`e2b_sandbox/sandbox_config.py:12-17`). -/
inductive SandboxMode where
  | exploration : SandboxMode
  | rendering : SandboxMode
  | interactive : SandboxMode
  | batch : SandboxMode
  deriving DecidableEq

/-- The `.value` attribute of the enum members. -/
def SandboxMode.value : SandboxMode → String
  | .exploration => "exploration"
  | .rendering => "rendering"
  | .interactive => "interactive"
  | .batch => "batch"

/-- The `SandboxConfig` dataclass (`e2b_sandbox/sandbox_config.py:20-51`).
Python ints are `Int` (they are unbounded and compared with `<`).  The
`temperature` field (a float) is omitted: it is never read by `to_dict`,
`validate_sandbox_config`, or anything else modelled here. -/
structure SandboxConfig where
  moonshot_api_key : String
  moonshot_base_url : String := "https://api.moonshot.ai/v1"
  model : String := "kimi-k2-0905-preview"
  thinking_mode : String := "heavy"
  use_tools : Bool := true
  mode : SandboxMode := .exploration
  max_depth : Int := 3
  max_tokens : Int := 8000
  output_dir : String := "/home/user/kimik2/output"
  media_dir : String := "/home/user/kimik2/media"
  log_dir : String := "/home/user/kimik2/logs"
  manim_quality : String := "l"
  manim_format : String := "mp4"
  max_render_time : Int := 300
  max_tree_depth : Int := 5
  max_narrative_words : Int := 3000
  deriving DecidableEq

/-- Embedding of `SandboxConfig.to_dict` (`sandbox_config.py:67-79`):
the API key entry is the constant `"***"` when the key is truthy
(non-empty) and `None` when it is empty; no other entry reads the key. -/
def SandboxConfig.to_dict (c : SandboxConfig) : JsonObj :=
  .cons "moonshot_api_key" (if c.moonshot_api_key = "" then .null else .str "***")
    (.cons "moonshot_base_url" (.str c.moonshot_base_url)
      (.cons "model" (.str c.model)
        (.cons "thinking_mode" (.str c.thinking_mode)
          (.cons "use_tools" (.bool c.use_tools)
            (.cons "mode" (.str c.mode.value)
              (.cons "max_depth" (.num c.max_depth)
                (.cons "max_tokens" (.num c.max_tokens)
                  (.cons "manim_quality" (.str c.manim_quality) .nil))))))))

/-- Embedding of `validate_sandbox_config` (`sandbox_config.py:110-132`).
A raised `ValueError` is `Except.error` carrying the message; the Python
function only reads config attributes, so the embedding is a pure
function of the config and the config value cannot change. -/
def validate_sandbox_config (c : SandboxConfig) : Except String Bool :=
  if c.moonshot_api_key = "" then
    .error "MOONSHOT_API_KEY is required"
  else if ¬ (c.thinking_mode ∈ (["heavy", "medium", "light", "true", "false"] : List String)) then
    .error ("Invalid thinking_mode: " ++ c.thinking_mode)
  else if ¬ (c.manim_quality ∈ (["l", "m", "h", "k"] : List String)) then
    .error ("Invalid manim_quality: " ++ c.manim_quality)
  else if c.max_depth < 1 ∨ c.max_depth > 10 then
    .error ("max_depth must be between 1 and 10, got " ++ toString c.max_depth)
  else
    .ok true

/-- Python `concept.replace(" ", "_")`: the pattern is the single space
character, so the replacement is the character-wise map. -/
def slugify (s : String) : String :=
  String.mk (s.data.map (fun ch => if ch = ' ' then '_' else ch))

/-- Observable actions of one pipeline run of `run_pipeline`
(`run_pipeline.py:20-64`). -/
inductive PipelineEvent where
  | explore_stage (concept : String)
  | math_stage : PipelineEvent
  | visual_stage : PipelineEvent
  | narrative_stage : PipelineEvent
  | write_file (path : String)
  deriving DecidableEq

/-- True for file-write events. -/
def PipelineEvent.isWrite : PipelineEvent → Bool
  | .write_file _ => true
  | _ => false

/-- Embedding of `run_pipeline` (`run_pipeline.py:20-64`): build the tree
with the Explorer, run the enrichment pipeline, and write the two output
files whose names derive from the topic by replacing spaces with
underscores.  The order of the three stages inside
`KimiEnrichmentPipeline.run_async` (math, then visual, then narrative) is
modelled from the spec, the `agents.enrichment_chain` module being absent
from the sources. -/
def run_pipeline_trace (concept : String) : List PipelineEvent :=
  [.explore_stage concept, .math_stage, .visual_stage, .narrative_stage,
   .write_file (slugify concept ++ "_enriched.json"),
   .write_file (slugify concept ++ "_narrative.txt")]

/-- Embedding of the `__main__` guard of `run_pipeline.py:67-81`: a run
that completes lets the interpreter exit normally (status 0); any
exception is caught and converted to `sys.exit(1)`. -/
def pipeline_exit_code (outcome : Except String (List PipelineEvent)) : Nat :=
  match outcome with
  | .ok _ => 0
  | .error _ => 1

/-- Per-node invariant established by exploration: depth within the bound,
depth-capped nodes and foundational nodes are childless, and a node whose
foundational check failed defaults to foundational. -/
def nodeOk (svc : Service) (max_depth : Nat) (m : KnowledgeNode) : Prop :=
  m.depth ≤ max_depth ∧
  (m.depth = max_depth → m.prerequisites = .nil ∧ m.is_foundation = true) ∧
  (m.is_foundation = true → m.prerequisites = .nil) ∧
  (svc.is_foundational m.concept = none → m.is_foundation = true)

/-- Every node of every tree cached in the memo satisfies the invariant. -/
def memoOk (svc : Service) (max_depth : Nat) (memo : Memo) : Prop :=
  ∀ p ∈ memo, ∀ m ∈ allNodes p.2, nodeOk svc max_depth m

/-- A service for which every concept is foundational. -/
def svcAllFoundational : Service :=
  ⟨fun _ => some true, fun _ => some []⟩

/-- A service whose calls always fail (raise or return unparseable text). -/
def svcAlwaysFails : Service :=
  ⟨fun _ => none, fun _ => none⟩

/-- A service whose prerequisite graph has a self-loop: every concept lists
"A" as its direct prerequisite, so exploring "A" re-enters "A" while its
own exploration is still in progress. -/
def svcSelfLoop : Service :=
  ⟨fun _ => some false, fun _ => some ["A"]⟩

/-- Concept strings of the nodes of a child list, with multiplicity. -/
def treeConceptsList (l : NodeList) : List String :=
  (allNodesList l).map KnowledgeNode.concept

/-- Request-accounting contract of one exploration step on concept `c`:
request counts only grow, by at most one foundational check per concept;
concepts already memoized receive no new request; a concept acquiring a
new check was not memoized, is reachable from `c`, and is memoized
afterwards; prerequisite requests never outgrow foundational checks;
memo keys only grow, and every new key received a new check. -/
def GoOut (svc : Service) (c : String) (memo memo1 : Memo)
    (log log1 : List Request) : Prop :=
  (∀ d, countFound log d ≤ countFound log1 d ∧
        countFound log1 d ≤ countFound log d + 1 ∧
        countPrereq log d ≤ countPrereq log1 d) ∧
  (∀ d, d ∈ memoKeys memo →
        countFound log1 d = countFound log d ∧
        countPrereq log1 d = countPrereq log d) ∧
  (∀ d, countFound log1 d = countFound log d + 1 →
        d ∉ memoKeys memo ∧ Relation.ReflTransGen (serviceRel svc) c d ∧
        d ∈ memoKeys memo1) ∧
  (∀ d, countPrereq log1 d + countFound log d ≤
        countFound log1 d + countPrereq log d) ∧
  (∀ d, d ∈ memoKeys memo → d ∈ memoKeys memo1) ∧
  (∀ d, d ∈ memoKeys memo1 →
        d ∈ memoKeys memo ∨ countFound log1 d = countFound log d + 1)

/-- The same contract for the sequential exploration of a list of
prerequisite concepts: reachability is from some member of the list. -/
def ListOut (svc : Service) (cs : List String) (memo memo1 : Memo)
    (log log1 : List Request) : Prop :=
  (∀ d, countFound log d ≤ countFound log1 d ∧
        countFound log1 d ≤ countFound log d + 1 ∧
        countPrereq log d ≤ countPrereq log1 d) ∧
  (∀ d, d ∈ memoKeys memo →
        countFound log1 d = countFound log d ∧
        countPrereq log1 d = countPrereq log d) ∧
  (∀ d, countFound log1 d = countFound log d + 1 →
        d ∉ memoKeys memo ∧
        (∃ e ∈ cs, Relation.ReflTransGen (serviceRel svc) e d) ∧
        d ∈ memoKeys memo1) ∧
  (∀ d, countPrereq log1 d + countFound log d ≤
        countFound log1 d + countPrereq log d) ∧
  (∀ d, d ∈ memoKeys memo → d ∈ memoKeys memo1) ∧
  (∀ d, d ∈ memoKeys memo1 →
        d ∈ memoKeys memo ∨ countFound log1 d = countFound log d + 1)

/-- Every concept of every tree cached in the memo is itself a memo key
(finished subtrees are fully memoized). -/
def MemoClosed (memo : Memo) : Prop :=
  ∀ p ∈ memo, ∀ e ∈ treeConcepts p.2, e ∈ memoKeys memo

/-- A design environment for which every chat response is unparseable:
structured extraction and the JSON fallback both fail for every concept.
The missing `VisualSpec.from_payload(...).to_dict()` helper is
instantiated with the identity on the payload (any concrete choice
serves; the theorems below hold for all of them). -/
def envUnparseable : DesignEnv :=
  ⟨fun _ => none, fun _ p => p⟩

/-- A bare un-enriched node, as the Explorer would hand to the Visual
stage. -/
def plainNode : KnowledgeNode :=
  .mk "minimal surfaces" 0 false .nil none none none none

theorem jsonToStrList_strListToJson (xs : List String) :
    jsonToStrList (strListToJson xs) = some xs := by
  induction xs with
  | nil => rfl
  | cons x tl ih => simp [strListToJson, jsonToStrList, ih]

theorem enrichment_lookup_equations (eq df : Option (List String))
    (vs : Option JsonObj) (na : Option String) :
    (enrichmentObj eq df vs na).lookup "equations" =
      if truthyStrList eq then some (.arr (strListToJson (eq.getD []))) else none := by
  unfold enrichmentObj
  by_cases h1 : truthyStrList eq <;>
  by_cases h2 : truthyStrList df <;>
  by_cases h3 : truthyObj vs <;>
  by_cases h4 : truthyStr na <;>
  simp [h1, h2, h3, h4, JsonObj.append, JsonObj.lookup]

theorem enrichment_lookup_definitions (eq df : Option (List String))
    (vs : Option JsonObj) (na : Option String) :
    (enrichmentObj eq df vs na).lookup "definitions" =
      if truthyStrList df then some (.arr (strListToJson (df.getD []))) else none := by
  unfold enrichmentObj
  by_cases h1 : truthyStrList eq <;>
  by_cases h2 : truthyStrList df <;>
  by_cases h3 : truthyObj vs <;>
  by_cases h4 : truthyStr na <;>
  simp [h1, h2, h3, h4, JsonObj.append, JsonObj.lookup]

theorem enrichment_lookup_visual (eq df : Option (List String))
    (vs : Option JsonObj) (na : Option String) :
    (enrichmentObj eq df vs na).lookup "visual_spec" =
      if truthyObj vs then some (.obj (vs.getD .nil)) else none := by
  unfold enrichmentObj
  by_cases h1 : truthyStrList eq <;>
  by_cases h2 : truthyStrList df <;>
  by_cases h3 : truthyObj vs <;>
  by_cases h4 : truthyStr na <;>
  simp [h1, h2, h3, h4, JsonObj.append, JsonObj.lookup]

theorem enrichment_lookup_narrative (eq df : Option (List String))
    (vs : Option JsonObj) (na : Option String) :
    (enrichmentObj eq df vs na).lookup "narrative" =
      if truthyStr na then some (.str (na.getD "")) else none := by
  unfold enrichmentObj
  by_cases h1 : truthyStrList eq <;>
  by_cases h2 : truthyStrList df <;>
  by_cases h3 : truthyObj vs <;>
  by_cases h4 : truthyStr na <;>
  simp [h1, h2, h3, h4, JsonObj.append, JsonObj.lookup]

theorem decode_equations_entry (eq : Option (List String)) :
    decodeOptStrList (if truthyStrList eq then some (.arr (strListToJson (eq.getD []))) else none) =
      some (if truthyStrList eq then eq else none) := by
  cases eq with
  | none => simp [truthyStrList, decodeOptStrList]
  | some xs =>
    by_cases h : xs.isEmpty <;>
    simp [truthyStrList, h, decodeOptStrList, jsonToStrList_strListToJson]

theorem decode_visual_entry (vs : Option JsonObj) :
    decodeOptObj (if truthyObj vs then some (.obj (vs.getD .nil)) else none) =
      some (if truthyObj vs then vs else none) := by
  cases vs with
  | none => simp [truthyObj, decodeOptObj]
  | some o => cases o <;> simp [truthyObj, decodeOptObj]

theorem decode_narrative_entry (na : Option String) :
    decodeOptStr (if truthyStr na then some (.str (na.getD "")) else none) =
      some (if truthyStr na then na else none) := by
  cases na with
  | none => simp [truthyStr, decodeOptStr]
  | some s =>
    by_cases h : s = "" <;> simp [truthyStr, h, decodeOptStr]

mutual

theorem roundtrip_node : ∀ (n : KnowledgeNode),
    dict_to_node (serialize_tree n) = some (normalize_tree n)
  | .mk c d f pr eq df vs na => by
    have ih := roundtrip_list pr
    simp [serialize_tree, dict_to_node, JsonObj.append, JsonObj.lookup, prereqs_of,
      enrichment_lookup_equations, enrichment_lookup_definitions,
      enrichment_lookup_visual, enrichment_lookup_narrative,
      decode_equations_entry, decode_visual_entry, decode_narrative_entry,
      ih, normalize_tree]

theorem roundtrip_list : ∀ (l : NodeList),
    dict_to_list (serialize_list l) = some (normalize_list l)
  | .nil => by simp [serialize_list, dict_to_list, normalize_list]
  | .cons n tl => by
    have ih1 := roundtrip_node n
    have ih2 := roundtrip_list tl
    simp [serialize_list, dict_to_list, normalize_list, ih1, ih2]

end

theorem clean_strList_if (o : Option (List String)) (h : cleanStrList o = true) :
    (if truthyStrList o then o else none) = o := by
  cases o with
  | none => simp [truthyStrList]
  | some xs =>
    simp [cleanStrList] at h
    simp [truthyStrList, h]

theorem clean_obj_if (o : Option JsonObj) (h : cleanObj o = true) :
    (if truthyObj o then o else none) = o := by
  cases o with
  | none => simp [truthyObj]
  | some v =>
    cases v with
    | nil => simp [cleanObj] at h
    | cons k x tl => simp [truthyObj]

theorem clean_str_if (o : Option String) (h : cleanStr o = true) :
    (if truthyStr o then o else none) = o := by
  cases o with
  | none => simp [truthyStr]
  | some s =>
    simp [cleanStr] at h
    simp [truthyStr, h]

mutual

theorem normalize_eq_self_of_clean : ∀ (n : KnowledgeNode),
    cleanTree n = true → normalize_tree n = n
  | .mk c d f pr eq df vs na => by
    intro h
    simp only [cleanTree, Bool.and_eq_true] at h
    obtain ⟨⟨⟨⟨h1, h2⟩, h3⟩, h4⟩, h5⟩ := h
    have ih := normalize_list_eq_self_of_clean pr h5
    simp [normalize_tree, ih, clean_strList_if _ h1, clean_strList_if _ h2,
      clean_obj_if _ h3, clean_str_if _ h4]

theorem normalize_list_eq_self_of_clean : ∀ (l : NodeList),
    cleanList l = true → normalize_list l = l
  | .nil => by intro h; rfl
  | .cons n tl => by
    intro h
    simp only [cleanList, Bool.and_eq_true] at h
    simp [normalize_list, normalize_eq_self_of_clean n h.1,
      normalize_list_eq_self_of_clean tl h.2]

end

/-- C1 counterexample: a node whose Math enrichment left an empty but
present `equations` list does not survive the round trip with its
enrichment payload intact; the empty list comes back as `None`, because
`_serialize_tree` guards the key by Python truthiness. -/
theorem roundtrip_drops_empty_equations :
    dict_to_node (serialize_tree emptyEqNode) = some emptyEqNodeDropped ∧
    emptyEqNode.equations = some [] ∧
    emptyEqNodeDropped.equations = none ∧
    emptyEqNodeDropped ≠ emptyEqNode := by
  refine ⟨by decide, by decide, by decide, by decide⟩

/-- C1 (amended): the round trip `from_dict(to_dict(T))` reproduces `T`
exactly for trees none of whose enrichment fields holds an empty-but-
present value; in general it reproduces `T` with Python-falsy enrichment
fields replaced by `None`. -/
theorem roundtrip_identity_on_clean_trees (n : KnowledgeNode)
    (h : cleanTree n = true) :
    dict_to_node (serialize_tree n) = some n := by
  rw [roundtrip_node n, normalize_eq_self_of_clean n h]

theorem roundtrip_identity_on_clean_trees_witness :
    cleanTree (.mk "fourier transform" 0 false
        (.cons (.mk "integral" 1 true .nil none none none none) .nil)
        (some ["F(w) = ..."]) none (some (.cons "duration" (.num 30) .nil))
        (some "story")) = true ∧
    dict_to_node (serialize_tree (.mk "fourier transform" 0 false
        (.cons (.mk "integral" 1 true .nil none none none none) .nil)
        (some ["F(w) = ..."]) none (some (.cons "duration" (.num 30) .nil))
        (some "story"))) = some (.mk "fourier transform" 0 false
        (.cons (.mk "integral" 1 true .nil none none none none) .nil)
        (some ["F(w) = ..."]) none (some (.cons "duration" (.num 30) .nil))
        (some "story")) :=
  ⟨by decide, roundtrip_identity_on_clean_trees _ (by decide)⟩

/-- C5 counterexample: serializing a node whose `equations`, `definitions`,
`visual_spec` and `narrative` hold empty-but-present values emits none of
those keys, contradicting the claim that non-None fields are always
emitted. -/
theorem serialize_omits_empty_but_present_fields :
    emptyEqNode2.equations = some [] ∧
    objLookupJson (serialize_tree emptyEqNode2) "equations" = none ∧
    emptyEqNode2.visual_spec = some .nil ∧
    objLookupJson (serialize_tree emptyEqNode2) "visual_spec" = none ∧
    emptyEqNode2.narrative = some "" ∧
    objLookupJson (serialize_tree emptyEqNode2) "narrative" = none := by
  refine ⟨by decide, by decide, by decide, by decide, by decide, by decide⟩

/-- C5 (amended): serialization always emits `concept`, `depth`,
`is_foundation` and `prerequisites`, and emits each enrichment key exactly
when the field is Python-truthy (non-None and non-empty), not merely
non-None. -/
theorem serialize_key_presence_truthiness (n : KnowledgeNode) :
    objLookupJson (serialize_tree n) "concept" = some (.str n.concept) ∧
    objLookupJson (serialize_tree n) "depth" = some (.num n.depth) ∧
    objLookupJson (serialize_tree n) "is_foundation" = some (.bool n.is_foundation) ∧
    objLookupJson (serialize_tree n) "prerequisites" = some (.arr (serialize_list n.prerequisites)) ∧
    (objLookupJson (serialize_tree n) "equations").isSome = truthyStrList n.equations ∧
    (objLookupJson (serialize_tree n) "definitions").isSome = truthyStrList n.definitions ∧
    (objLookupJson (serialize_tree n) "visual_spec").isSome = truthyObj n.visual_spec ∧
    (objLookupJson (serialize_tree n) "narrative").isSome = truthyStr n.narrative := by
  cases n with
  | mk c d f pr eq df vs na =>
    refine ⟨?_, ?_, ?_, ?_, ?_, ?_, ?_, ?_⟩ <;>
    simp [serialize_tree, objLookupJson, JsonObj.append, JsonObj.lookup,
      enrichment_lookup_equations, enrichment_lookup_definitions,
      enrichment_lookup_visual, enrichment_lookup_narrative,
      KnowledgeNode.concept, KnowledgeNode.depth, KnowledgeNode.is_foundation,
      KnowledgeNode.prerequisites, KnowledgeNode.equations,
      KnowledgeNode.definitions, KnowledgeNode.visual_spec, KnowledgeNode.narrative] <;>
    split <;> simp_all

theorem memoLookup_mem (memo : Memo) (c : String) (n : KnowledgeNode)
    (h : memoLookup memo c = some n) : ∃ k, (k, n) ∈ memo := by
  unfold memoLookup at h
  cases hf : memo.find? (fun p => p.1 == c) with
  | none => simp [hf] at h
  | some p =>
    simp [hf] at h
    have hp := List.mem_of_find?_eq_some hf
    subst h
    exact ⟨p.1, by simpa using hp⟩


theorem explore_go_hit (svc : Service) (maxD fuel : Nat) (c : String)
    (memo : Memo) (log : List Request) (node : KnowledgeNode)
    (hml : memoLookup memo c = some node) :
    explore_go svc maxD fuel c memo log = (node, memo, log) := by
  rw [explore_go]
  simp [hml]

theorem explore_go_miss_zero (svc : Service) (maxD : Nat) (c : String)
    (memo : Memo) (log : List Request)
    (hml : memoLookup memo c = none) :
    explore_go svc maxD 0 c memo log =
      (foundationalLeaf c maxD, (c, foundationalLeaf c maxD) :: memo,
       log ++ [Request.foundational_check c]) := by
  rw [explore_go]
  simp [hml]

theorem explore_go_miss_found (svc : Service) (maxD fuel' : Nat) (c : String)
    (memo : Memo) (log : List Request)
    (hml : memoLookup memo c = none)
    (hF : (svc.is_foundational c).getD true = true) :
    explore_go svc maxD (fuel' + 1) c memo log =
      (foundationalLeaf c (maxD - (fuel' + 1)),
       (c, foundationalLeaf c (maxD - (fuel' + 1))) :: memo,
       log ++ [Request.foundational_check c]) := by
  rw [explore_go]
  simp [hml, hF]

theorem explore_go_miss_prereq_fail (svc : Service) (maxD fuel' : Nat) (c : String)
    (memo : Memo) (log : List Request)
    (hml : memoLookup memo c = none)
    (hF : (svc.is_foundational c).getD true = false)
    (hP : svc.prerequisite_list c = none) :
    explore_go svc maxD (fuel' + 1) c memo log =
      (foundationalLeaf c (maxD - (fuel' + 1)),
       (c, foundationalLeaf c (maxD - (fuel' + 1))) :: memo,
       log ++ [Request.foundational_check c, Request.prereq_request c]) := by
  rw [explore_go]
  simp [hml, hF, hP]

theorem explore_go_miss_expand (svc : Service) (maxD fuel' : Nat) (c : String)
    (memo : Memo) (log : List Request) (ps : List String)
    (hml : memoLookup memo c = none)
    (hF : (svc.is_foundational c).getD true = false)
    (hP : svc.prerequisite_list c = some ps) :
    explore_go svc maxD (fuel' + 1) c memo log =
      (KnowledgeNode.mk c (maxD - (fuel' + 1)) false
        (explore_children (fun c' m' l' => explore_go svc maxD fuel' c' m' l') ps memo
          (log ++ [Request.foundational_check c, Request.prereq_request c])).1
        none none none none,
       (c, KnowledgeNode.mk c (maxD - (fuel' + 1)) false
        (explore_children (fun c' m' l' => explore_go svc maxD fuel' c' m' l') ps memo
          (log ++ [Request.foundational_check c, Request.prereq_request c])).1
        none none none none) ::
        (explore_children (fun c' m' l' => explore_go svc maxD fuel' c' m' l') ps memo
          (log ++ [Request.foundational_check c, Request.prereq_request c])).2.1,
       (explore_children (fun c' m' l' => explore_go svc maxD fuel' c' m' l') ps memo
          (log ++ [Request.foundational_check c, Request.prereq_request c])).2.2) := by
  rw [explore_go]
  simp [hml, hF, hP]

theorem explore_children_ok
    (f : String → Memo → List Request → (KnowledgeNode × Memo × List Request))
    (P : KnowledgeNode → Prop) (Q : Memo → Prop)
    (hf : ∀ c memo log, Q memo →
      (∀ m ∈ allNodes (f c memo log).1, P m) ∧ Q (f c memo log).2.1) :
    ∀ (cs : List String) (memo : Memo) (log : List Request), Q memo →
      (∀ m ∈ allNodesList (explore_children f cs memo log).1, P m) ∧
      Q (explore_children f cs memo log).2.1 := by
  intro cs
  induction cs with
  | nil =>
    intro memo log hq
    refine ⟨?_, ?_⟩
    · intro m hm
      simp [explore_children, allNodesList] at hm
    · simpa [explore_children] using hq
  | cons c cs ih =>
    intro memo log hq
    obtain ⟨h1, h2⟩ := hf c memo log hq
    obtain ⟨h3, h4⟩ := ih (f c memo log).2.1 (f c memo log).2.2 h2
    refine ⟨?_, ?_⟩
    · intro m hm
      simp only [explore_children, allNodesList, List.mem_append] at hm
      rcases hm with hm | hm
      · exact h1 m hm
      · exact h3 m hm
    · simpa [explore_children] using h4

theorem leaf_nodeOk (svc : Service) (maxD dep : Nat) (c : String)
    (hdep : dep ≤ maxD) :
    ∀ m ∈ allNodes (foundationalLeaf c dep), nodeOk svc maxD m := by
  intro m hm
  simp [foundationalLeaf, allNodes, allNodesList] at hm
  subst hm
  exact ⟨by simpa [foundationalLeaf, KnowledgeNode.depth] using hdep,
    fun _ => ⟨rfl, rfl⟩, fun _ => rfl, fun _ => rfl⟩

theorem memoOk_cons (svc : Service) (maxD : Nat) (c : String)
    (n : KnowledgeNode) (memo : Memo)
    (hn : ∀ m ∈ allNodes n, nodeOk svc maxD m)
    (hmemo : memoOk svc maxD memo) :
    memoOk svc maxD ((c, n) :: memo) := by
  intro p hp
  simp only [List.mem_cons] at hp
  rcases hp with hp | hp
  · subst hp
    exact hn
  · exact hmemo p hp

theorem explore_go_ok (svc : Service) (maxD : Nat) :
    ∀ (fuel : Nat), fuel ≤ maxD →
    ∀ (c : String) (memo : Memo) (log : List Request), memoOk svc maxD memo →
      (∀ m ∈ allNodes (explore_go svc maxD fuel c memo log).1, nodeOk svc maxD m) ∧
      memoOk svc maxD (explore_go svc maxD fuel c memo log).2.1 := by
  intro fuel
  induction fuel with
  | zero =>
    intro _ c memo log hmemo
    rcases hml : memoLookup memo c with _ | node
    · rw [explore_go_miss_zero svc maxD c memo log hml]
      exact ⟨leaf_nodeOk svc maxD maxD c (le_refl _),
        memoOk_cons svc maxD c _ memo (leaf_nodeOk svc maxD maxD c (le_refl _)) hmemo⟩
    · rw [explore_go_hit svc maxD 0 c memo log node hml]
      obtain ⟨k, hk⟩ := memoLookup_mem memo c node hml
      exact ⟨hmemo (k, node) hk, hmemo⟩
  | succ fuel' ih =>
    intro hfuel c memo log hmemo
    have hfuel' : fuel' ≤ maxD := Nat.le_of_succ_le hfuel
    have hsub : maxD - (fuel' + 1) ≤ maxD := Nat.sub_le _ _
    rcases hml : memoLookup memo c with _ | node
    · rcases hF : (svc.is_foundational c).getD true with _ | _
      case false =>
        rcases hP : svc.prerequisite_list c with _ | ps
        · rw [explore_go_miss_prereq_fail svc maxD fuel' c memo log hml hF hP]
          exact ⟨leaf_nodeOk svc maxD _ c hsub,
            memoOk_cons svc maxD c _ memo (leaf_nodeOk svc maxD _ c hsub) hmemo⟩
        · have hkids := explore_children_ok
            (fun c' m' l' => explore_go svc maxD fuel' c' m' l')
            (nodeOk svc maxD) (memoOk svc maxD)
            (fun c' memo' log' h => ih hfuel' c' memo' log' h)
            ps memo
            (log ++ [Request.foundational_check c, Request.prereq_request c])
            hmemo
          obtain ⟨hkidNodes, hkidMemo⟩ := hkids
          rw [explore_go_miss_expand svc maxD fuel' c memo log ps hml hF hP]
          have hnodeOk : nodeOk svc maxD
              (KnowledgeNode.mk c (maxD - (fuel' + 1)) false
                (explore_children (fun c' m' l' => explore_go svc maxD fuel' c' m' l')
                  ps memo
                  (log ++ [Request.foundational_check c, Request.prereq_request c])).1
                none none none none) := by
            refine ⟨?_, ?_, ?_, ?_⟩
            · simp only [KnowledgeNode.depth]
              exact hsub
            · intro hdep
              simp only [KnowledgeNode.depth] at hdep
              omega
            · intro hfound
              simp [KnowledgeNode.is_foundation] at hfound
            · intro hnone
              simp only [KnowledgeNode.concept] at hnone
              rw [hnone] at hF
              simp [Option.getD] at hF
          have htree : ∀ m ∈ allNodes
              (KnowledgeNode.mk c (maxD - (fuel' + 1)) false
                (explore_children (fun c' m' l' => explore_go svc maxD fuel' c' m' l')
                  ps memo
                  (log ++ [Request.foundational_check c, Request.prereq_request c])).1
                none none none none), nodeOk svc maxD m := by
            intro m hm
            simp only [allNodes, List.mem_cons] at hm
            rcases hm with hm | hm
            · subst hm
              exact hnodeOk
            · exact hkidNodes m hm
          exact ⟨htree, memoOk_cons svc maxD c _ _ htree hkidMemo⟩
      case true =>
        rw [explore_go_miss_found svc maxD fuel' c memo log hml hF]
        exact ⟨leaf_nodeOk svc maxD _ c hsub,
          memoOk_cons svc maxD c _ memo (leaf_nodeOk svc maxD _ c hsub) hmemo⟩
    · rw [explore_go_hit svc maxD (fuel' + 1) c memo log node hml]
      obtain ⟨k, hk⟩ := memoLookup_mem memo c node hml
      exact ⟨hmemo (k, node) hk, hmemo⟩

theorem memoOk_nil (svc : Service) (maxD : Nat) : memoOk svc maxD [] := by
  intro p hp
  simp at hp

/-- C2: every node of an explored tree respects the configured depth bound,
and nodes sitting exactly at the bound have no prerequisites and are
marked foundational regardless of the service's answer. -/
theorem explore_depth_bound (svc : Service) (c0 : String) (maxD : Nat)
    (m : KnowledgeNode) (hm : m ∈ allNodes (explore svc c0 maxD).1) :
    m.depth ≤ maxD ∧
    (m.depth = maxD → m.prerequisites = .nil ∧ m.is_foundation = true) := by
  have h := (explore_go_ok svc maxD maxD (le_refl _) c0 [] []
    (memoOk_nil svc maxD)).1 m hm
  exact ⟨h.1, h.2.1⟩

theorem explore_depth_bound_witness :
    (KnowledgeNode.mk "X" 0 true .nil none none none none).depth ≤ 2 ∧
    ((KnowledgeNode.mk "X" 0 true .nil none none none none).depth = 2 →
      (KnowledgeNode.mk "X" 0 true .nil none none none none).prerequisites = .nil ∧
      (KnowledgeNode.mk "X" 0 true .nil none none none none).is_foundation = true) :=
  explore_depth_bound svcAllFoundational "X" 2
    (KnowledgeNode.mk "X" 0 true .nil none none none none) (by decide)

/-- C4: a node whose foundational check fails (the service raises or its
answer cannot be parsed) defaults to a foundational leaf, and the explored
tree is still fully built (the exploration function is total and every
node of the result is accounted for). -/
theorem explore_failed_check_defaults (svc : Service) (c0 : String)
    (maxD : Nat) (m : KnowledgeNode)
    (hm : m ∈ allNodes (explore svc c0 maxD).1)
    (hfail : svc.is_foundational m.concept = none) :
    m.is_foundation = true ∧ m.prerequisites = .nil := by
  have h := (explore_go_ok svc maxD maxD (le_refl _) c0 [] []
    (memoOk_nil svc maxD)).1 m hm
  have hfound := h.2.2.2 hfail
  exact ⟨hfound, h.2.2.1 hfound⟩

theorem explore_failed_check_defaults_witness :
    (KnowledgeNode.mk "X" 0 true .nil none none none none).is_foundation = true ∧
    (KnowledgeNode.mk "X" 0 true .nil none none none none).prerequisites = .nil :=
  explore_failed_check_defaults svcAlwaysFails "X" 3
    (KnowledgeNode.mk "X" 0 true .nil none none none none) (by decide) (by decide)

mutual

theorem allNodes_normalize : ∀ (n : KnowledgeNode),
    allNodes (normalize_tree n) = (allNodes n).map normalize_tree
  | .mk c d f pr eq df vs na => by
    simp [normalize_tree, allNodes, allNodesList_normalize pr]

theorem allNodesList_normalize : ∀ (l : NodeList),
    allNodesList (normalize_list l) = (allNodesList l).map normalize_tree
  | .nil => by simp [normalize_list, allNodesList]
  | .cons n tl => by
    simp [normalize_list, allNodesList, allNodes_normalize n,
      allNodesList_normalize tl]

end

theorem normalize_is_foundation (n : KnowledgeNode) :
    (normalize_tree n).is_foundation = n.is_foundation := by
  cases n
  simp [normalize_tree, KnowledgeNode.is_foundation]

theorem normalize_prereq_nil (n : KnowledgeNode) :
    (normalize_tree n).prerequisites = .nil ↔ n.prerequisites = .nil := by
  cases n with
  | mk c d f pr eq df vs na =>
    cases pr <;>
    simp [normalize_tree, normalize_list, KnowledgeNode.prerequisites]

/-- C7: in every tree the program constructs, a node marked foundational
has no prerequisites: first for every explored tree, and second for the
result of deserializing a tree the program itself serialized (the decode
of an encode), where the invariant is inherited from the encoded tree. -/
theorem foundation_nodes_childless :
    (∀ (svc : Service) (c0 : String) (maxD : Nat),
      ∀ m ∈ allNodes (explore svc c0 maxD).1,
        m.is_foundation = true → m.prerequisites = .nil) ∧
    (∀ (t u : KnowledgeNode),
      dict_to_node (serialize_tree t) = some u →
      (∀ m ∈ allNodes t, m.is_foundation = true → m.prerequisites = .nil) →
      (∀ m ∈ allNodes u, m.is_foundation = true → m.prerequisites = .nil)) := by
  constructor
  · intro svc c0 maxD m hm
    exact ((explore_go_ok svc maxD maxD (le_refl _) c0 [] []
      (memoOk_nil svc maxD)).1 m hm).2.2.1
  · intro t u hdec hinv m hm
    rw [roundtrip_node t] at hdec
    have hu : u = normalize_tree t := by
      exact (Option.some.injEq _ _).mp hdec.symm
    subst hu
    rw [allNodes_normalize t] at hm
    obtain ⟨m0, hm0, hm0eq⟩ := List.mem_map.mp hm
    subst hm0eq
    intro hfound
    rw [normalize_is_foundation m0] at hfound
    exact (normalize_prereq_nil m0).mpr (hinv m0 hm0 hfound)

theorem foundation_nodes_childless_witness :
    (KnowledgeNode.mk "X" 0 true .nil none none none none).prerequisites = .nil ∧
    (KnowledgeNode.mk "Y" 0 true .nil none none none none).prerequisites = .nil :=
  ⟨foundation_nodes_childless.1 svcAllFoundational "X" 1
      (KnowledgeNode.mk "X" 0 true .nil none none none none) (by decide) (by decide),
   foundation_nodes_childless.2
      (KnowledgeNode.mk "Y" 0 true .nil (some []) none none none)
      (KnowledgeNode.mk "Y" 0 true .nil none none none none)
      (by decide) (by decide)
      (KnowledgeNode.mk "Y" 0 true .nil none none none none) (by decide) (by decide)⟩

theorem countFound_append (l1 l2 : List Request) (c : String) :
    countFound (l1 ++ l2) c = countFound l1 c + countFound l2 c := by
  induction l1 with
  | nil => simp [countFound]
  | cons r tl ih =>
    cases r <;> simp [countFound, ih, Nat.add_assoc]

theorem countPrereq_append (l1 l2 : List Request) (c : String) :
    countPrereq (l1 ++ l2) c = countPrereq l1 c + countPrereq l2 c := by
  induction l1 with
  | nil => simp [countPrereq]
  | cons r tl ih =>
    cases r <;> simp [countPrereq, ih, Nat.add_assoc]

theorem countFound_check (d c : String) :
    countFound [Request.foundational_check d] c = if d = c then 1 else 0 := by
  simp [countFound]

theorem countFound_prereq (d c : String) :
    countFound [Request.prereq_request d] c = 0 := by
  simp [countFound]

theorem countPrereq_check (d c : String) :
    countPrereq [Request.foundational_check d] c = 0 := by
  simp [countPrereq]

theorem countPrereq_prereq (d c : String) :
    countPrereq [Request.prereq_request d] c = if d = c then 1 else 0 := by
  simp [countPrereq]

theorem memoLookup_none_iff (memo : Memo) (c : String) :
    memoLookup memo c = none ↔ c ∉ memoKeys memo := by
  unfold memoLookup memoKeys
  rw [Option.map_eq_none', List.find?_eq_none]
  constructor
  · intro h hc
    obtain ⟨p, hp, hpe⟩ := List.mem_map.mp hc
    exact absurd (by simp [hpe]) (h p hp)
  · intro h p hp
    intro hbe
    exact h (List.mem_map.mpr ⟨p, hp, by simpa using hbe⟩)

theorem memoKeys_cons (c : String) (n : KnowledgeNode) (memo : Memo) :
    memoKeys ((c, n) :: memo) = c :: memoKeys memo := by
  simp [memoKeys]

theorem countFound_pair (c d : String) :
    countFound [Request.foundational_check c, Request.prereq_request c] d =
      if c = d then 1 else 0 := by
  simp [countFound]

theorem countPrereq_pair (c d : String) :
    countPrereq [Request.foundational_check c, Request.prereq_request c] d =
      if c = d then 1 else 0 := by
  simp [countPrereq]

theorem goOut_hit (svc : Service) (c : String) (memo : Memo)
    (log : List Request) :
    GoOut svc c memo memo log log := by
  refine ⟨?_, ?_, ?_, ?_, ?_, ?_⟩
  · intro d
    omega
  · intro d _
    omega
  · intro d h
    omega
  · intro d
    omega
  · intro d hd
    exact hd
  · intro d hd
    exact Or.inl hd

theorem listOut_nil (svc : Service) (cs : List String) (memo : Memo)
    (log : List Request) :
    ListOut svc cs memo memo log log := by
  refine ⟨?_, ?_, ?_, ?_, ?_, ?_⟩
  · intro d
    omega
  · intro d _
    omega
  · intro d h
    omega
  · intro d
    omega
  · intro d hd
    exact hd
  · intro d hd
    exact Or.inl hd

theorem listOut_comp (svc : Service) (c : String) (cs : List String)
    (memo memoA memoB : Memo) (log logA logB : List Request)
    (h1 : GoOut svc c memo memoA log logA)
    (h2 : ListOut svc cs memoA memoB logA logB) :
    ListOut svc (c :: cs) memo memoB log logB := by
  obtain ⟨a1, b1, c1, d1, e1, f1⟩ := h1
  obtain ⟨a2, b2, c2, d2, e2, f2⟩ := h2
  refine ⟨?_, ?_, ?_, ?_, ?_, ?_⟩
  · intro d
    obtain ⟨m1, u1, p1⟩ := a1 d
    obtain ⟨m2, u2, p2⟩ := a2 d
    refine ⟨le_trans m1 m2, ?_, le_trans p1 p2⟩
    by_cases hmid : countFound logA d = countFound log d + 1
    · have heq := (b2 d (c1 d hmid).2.2).1
      omega
    · omega
  · intro d hd
    have h1d := b1 d hd
    have h2d := b2 d (e1 d hd)
    exact ⟨by omega, by omega⟩
  · intro d htot
    obtain ⟨m1, u1, p1⟩ := a1 d
    obtain ⟨m2, u2, p2⟩ := a2 d
    by_cases hmid : countFound logA d = countFound log d + 1
    · obtain ⟨hnm, hre, hkA⟩ := c1 d hmid
      exact ⟨hnm, ⟨c, by simp, hre⟩, e2 d hkA⟩
    · have hseg2 : countFound logB d = countFound logA d + 1 := by omega
      obtain ⟨hnmA, ⟨e, he, hre⟩, hkB⟩ := c2 d hseg2
      exact ⟨fun hk => hnmA (e1 d hk), ⟨e, by simp [he], hre⟩, hkB⟩
  · intro d
    have hd1 := d1 d
    have hd2 := d2 d
    obtain ⟨m1, u1, p1⟩ := a1 d
    obtain ⟨m2, u2, p2⟩ := a2 d
    omega
  · intro d hd
    exact e2 d (e1 d hd)
  · intro d hd
    rcases f2 d hd with hdA | hplus
    · rcases f1 d hdA with hdm | hplus1
      · exact Or.inl hdm
      · have heq := (b2 d (c1 d hplus1).2.2).1
        exact Or.inr (by omega)
    · obtain ⟨m1, u1, p1⟩ := a1 d
      by_cases hmid : countFound logA d = countFound log d + 1
      · exact absurd (c1 d hmid).2.2 (c2 d hplus).1
      · exact Or.inr (by omega)

theorem explore_children_counts (svc : Service)
    (f : String → Memo → List Request → (KnowledgeNode × Memo × List Request))
    (hf : ∀ c memo log, GoOut svc c memo (f c memo log).2.1 log (f c memo log).2.2) :
    ∀ (cs : List String) (memo : Memo) (log : List Request),
      ListOut svc cs memo (explore_children f cs memo log).2.1
        log (explore_children f cs memo log).2.2 := by
  intro cs
  induction cs with
  | nil =>
    intro memo log
    simpa [explore_children] using listOut_nil svc [] memo log
  | cons c cs ih =>
    intro memo log
    have h1 := hf c memo log
    have h2 := ih (f c memo log).2.1 (f c memo log).2.2
    have hcomp := listOut_comp svc c cs memo (f c memo log).2.1
      (explore_children f cs (f c memo log).2.1 (f c memo log).2.2).2.1
      log (f c memo log).2.2
      (explore_children f cs (f c memo log).2.1 (f c memo log).2.2).2.2 h1 h2
    simpa [explore_children] using hcomp

theorem goOut_check_only (svc : Service) (c : String) (memo : Memo)
    (log : List Request) (node : KnowledgeNode)
    (hml : memoLookup memo c = none) :
    GoOut svc c memo ((c, node) :: memo) log
      (log ++ [Request.foundational_check c]) := by
  have hnotin : c ∉ memoKeys memo := (memoLookup_none_iff memo c).mp hml
  refine ⟨?_, ?_, ?_, ?_, ?_, ?_⟩
  · intro d
    rw [countFound_append, countFound_check, countPrereq_append, countPrereq_check]
    by_cases h : c = d <;> simp [h]
  · intro d hd
    have hne : c ≠ d := fun h => hnotin (h ▸ hd)
    rw [countFound_append, countFound_check, countPrereq_append, countPrereq_check]
    simp [hne]
  · intro d hplus
    rw [countFound_append, countFound_check] at hplus
    by_cases h : c = d
    · subst h
      exact ⟨hnotin, Relation.ReflTransGen.refl, by simp [memoKeys_cons]⟩
    · simp [h] at hplus
  · intro d
    rw [countFound_append, countFound_check, countPrereq_append, countPrereq_check]
    by_cases h : c = d <;> simp [h] <;> omega
  · intro d hd
    simp [memoKeys_cons, hd]
  · intro d hd
    rw [memoKeys_cons] at hd
    rcases List.mem_cons.mp hd with h | h
    · subst h
      rw [countFound_append, countFound_check]
      simp
    · exact Or.inl h

theorem goOut_check_prereq (svc : Service) (c : String) (memo : Memo)
    (log : List Request) (node : KnowledgeNode)
    (hml : memoLookup memo c = none) :
    GoOut svc c memo ((c, node) :: memo) log
      (log ++ [Request.foundational_check c, Request.prereq_request c]) := by
  have hnotin : c ∉ memoKeys memo := (memoLookup_none_iff memo c).mp hml
  refine ⟨?_, ?_, ?_, ?_, ?_, ?_⟩
  · intro d
    rw [countFound_append, countFound_pair, countPrereq_append, countPrereq_pair]
    by_cases h : c = d <;> simp [h]
  · intro d hd
    have hne : c ≠ d := fun h => hnotin (h ▸ hd)
    rw [countFound_append, countFound_pair, countPrereq_append, countPrereq_pair]
    simp [hne]
  · intro d hplus
    rw [countFound_append, countFound_pair] at hplus
    by_cases h : c = d
    · subst h
      exact ⟨hnotin, Relation.ReflTransGen.refl, by simp [memoKeys_cons]⟩
    · simp [h] at hplus
  · intro d
    rw [countFound_append, countFound_pair, countPrereq_append, countPrereq_pair]
    by_cases h : c = d <;> simp [h] <;> omega
  · intro d hd
    simp [memoKeys_cons, hd]
  · intro d hd
    rw [memoKeys_cons] at hd
    rcases List.mem_cons.mp hd with h | h
    · subst h
      rw [countFound_append, countFound_pair]
      simp
    · exact Or.inl h

theorem goOut_expand (svc : Service) (c : String) (ps : List String)
    (memo memoB : Memo) (log logB : List Request) (node : KnowledgeNode)
    (hA : AcyclicService svc)
    (hml : memoLookup memo c = none)
    (hps : prereqsOf svc c = ps)
    (hlist : ListOut svc ps memo memoB
      (log ++ [Request.foundational_check c, Request.prereq_request c]) logB) :
    GoOut svc c memo ((c, node) :: memoB) log logB := by
  have hnotin : c ∉ memoKeys memo := (memoLookup_none_iff memo c).mp hml
  obtain ⟨a2, b2, c2, d2, e2, f2⟩ := hlist
  have hFm : ∀ d, countFound (log ++ [Request.foundational_check c, Request.prereq_request c]) d =
      countFound log d + (if c = d then 1 else 0) := by
    intro d
    rw [countFound_append, countFound_pair]
  have hPm : ∀ d, countPrereq (log ++ [Request.foundational_check c, Request.prereq_request c]) d =
      countPrereq log d + (if c = d then 1 else 0) := by
    intro d
    rw [countPrereq_append, countPrereq_pair]
  have hfc : countFound logB c =
      countFound (log ++ [Request.foundational_check c, Request.prereq_request c]) c := by
    obtain ⟨m2, u2, p2⟩ := a2 c
    by_cases hmid : countFound logB c =
        countFound (log ++ [Request.foundational_check c, Request.prereq_request c]) c + 1
    · obtain ⟨_, ⟨e, he, hre⟩, _⟩ := c2 c hmid
      have hrel : serviceRel svc c e := by
        unfold serviceRel
        rw [hps]
        exact he
      exact absurd (Relation.TransGen.head' hrel hre) (hA c)
    · omega
  refine ⟨?_, ?_, ?_, ?_, ?_, ?_⟩
  · intro d
    obtain ⟨m2, u2, p2⟩ := a2 d
    have h1 := hFm d
    have h2 := hPm d
    by_cases h : c = d
    · subst h
      have := hfc
      simp at h1 h2
      refine ⟨by omega, by omega, by omega⟩
    · simp [h] at h1 h2
      refine ⟨by omega, by omega, by omega⟩
  · intro d hd
    have hne : c ≠ d := fun h => hnotin (h ▸ hd)
    have h1 := hFm d
    have h2 := hPm d
    simp [hne] at h1 h2
    have hmem := b2 d hd
    exact ⟨by omega, by omega⟩
  · intro d hplus
    by_cases h : c = d
    · subst h
      exact ⟨hnotin, Relation.ReflTransGen.refl, by simp [memoKeys_cons]⟩
    · have h1 := hFm d
      simp [h] at h1
      have hseg : countFound logB d =
          countFound (log ++ [Request.foundational_check c, Request.prereq_request c]) d + 1 := by
        omega
      obtain ⟨hnm, ⟨e, he, hre⟩, hkB⟩ := c2 d hseg
      have hrel : serviceRel svc c e := by
        unfold serviceRel
        rw [hps]
        exact he
      exact ⟨hnm, Relation.ReflTransGen.head hrel hre, by simp [memoKeys_cons, hkB]⟩
  · intro d
    have hd2 := d2 d
    have h1 := hFm d
    have h2 := hPm d
    by_cases h : c = d
    · subst h
      have := hfc
      simp at h1 h2
      omega
    · simp [h] at h1 h2
      omega
  · intro d hd
    simp [memoKeys_cons]
    exact Or.inr (e2 d hd)
  · intro d hd
    rw [memoKeys_cons] at hd
    by_cases h : c = d
    · subst h
      have h1 := hFm c
      simp at h1
      exact Or.inr (by omega)
    · rcases List.mem_cons.mp hd with hce | hmem
      · exact absurd hce.symm h
      · rcases f2 d hmem with hml2 | hplus2
        · exact Or.inl hml2
        · have h1 := hFm d
          simp [h] at h1
          exact Or.inr (by omega)

theorem explore_go_counts (svc : Service) (maxD : Nat)
    (hA : AcyclicService svc) :
    ∀ (fuel : Nat) (c : String) (memo : Memo) (log : List Request),
      GoOut svc c memo (explore_go svc maxD fuel c memo log).2.1
        log (explore_go svc maxD fuel c memo log).2.2 := by
  intro fuel
  induction fuel with
  | zero =>
    intro c memo log
    rcases hml : memoLookup memo c with _ | node
    · rw [explore_go_miss_zero svc maxD c memo log hml]
      exact goOut_check_only svc c memo log _ hml
    · rw [explore_go_hit svc maxD 0 c memo log node hml]
      exact goOut_hit svc c memo log
  | succ fuel' ih =>
    intro c memo log
    rcases hml : memoLookup memo c with _ | node
    · rcases hF : (svc.is_foundational c).getD true with _ | _
      case false =>
        rcases hP : svc.prerequisite_list c with _ | ps
        · rw [explore_go_miss_prereq_fail svc maxD fuel' c memo log hml hF hP]
          exact goOut_check_prereq svc c memo log _ hml
        · rw [explore_go_miss_expand svc maxD fuel' c memo log ps hml hF hP]
          have hlist := explore_children_counts svc
            (fun c' m' l' => explore_go svc maxD fuel' c' m' l')
            (fun c' memo' log' => ih c' memo' log') ps memo
            (log ++ [Request.foundational_check c, Request.prereq_request c])
          exact goOut_expand svc c ps memo _ log _ _ hA hml
            (by unfold prereqsOf; rw [hP]; rfl) hlist
      case true =>
        rw [explore_go_miss_found svc maxD fuel' c memo log hml hF]
        exact goOut_check_only svc c memo log _ hml
    · rw [explore_go_hit svc maxD (fuel' + 1) c memo log node hml]
      exact goOut_hit svc c memo log

theorem treeConcepts_mk (c : String) (d : Nat) (f : Bool) (pr : NodeList)
    (eq df : Option (List String)) (vs : Option JsonObj) (na : Option String) :
    treeConcepts (.mk c d f pr eq df vs na) = c :: treeConceptsList pr := by
  simp [treeConcepts, treeConceptsList, allNodes, KnowledgeNode.concept]

theorem treeConceptsList_cons (n : KnowledgeNode) (tl : NodeList) :
    treeConceptsList (.cons n tl) = treeConcepts n ++ treeConceptsList tl := by
  simp [treeConcepts, treeConceptsList, allNodesList]

theorem treeConceptsList_nil : treeConceptsList .nil = [] := by
  simp [treeConceptsList, allNodesList]

theorem treeConcepts_leaf (c : String) (dep : Nat) :
    treeConcepts (foundationalLeaf c dep) = [c] := by
  simp [foundationalLeaf, treeConcepts_mk, treeConceptsList_nil]

theorem memoClosed_cons (c : String) (n : KnowledgeNode) (memo : Memo)
    (hmemo : MemoClosed memo)
    (htree : ∀ e ∈ treeConcepts n, e ∈ memoKeys ((c, n) :: memo)) :
    MemoClosed ((c, n) :: memo) := by
  intro p hp
  rcases List.mem_cons.mp hp with hp | hp
  · subst hp
    exact htree
  · intro e he
    rw [memoKeys_cons]
    exact List.mem_cons_of_mem _ (hmemo p hp e he)

theorem explore_children_closed
    (f : String → Memo → List Request → (KnowledgeNode × Memo × List Request))
    (hf : ∀ c memo log, MemoClosed memo →
      (∀ k ∈ memoKeys memo, k ∈ memoKeys (f c memo log).2.1) ∧
      MemoClosed (f c memo log).2.1 ∧
      (∀ e ∈ treeConcepts (f c memo log).1, e ∈ memoKeys (f c memo log).2.1)) :
    ∀ (cs : List String) (memo : Memo) (log : List Request), MemoClosed memo →
      (∀ k ∈ memoKeys memo,
         k ∈ memoKeys (explore_children f cs memo log).2.1) ∧
      MemoClosed (explore_children f cs memo log).2.1 ∧
      (∀ e ∈ treeConceptsList (explore_children f cs memo log).1,
         e ∈ memoKeys (explore_children f cs memo log).2.1) := by
  intro cs
  induction cs with
  | nil =>
    intro memo log hmemo
    refine ⟨?_, ?_, ?_⟩
    · intro k hk
      simpa [explore_children] using hk
    · simpa [explore_children] using hmemo
    · intro e he
      simp [explore_children, treeConceptsList_nil] at he
  | cons c cs ih =>
    intro memo log hmemo
    obtain ⟨hk1, hc1, ht1⟩ := hf c memo log hmemo
    obtain ⟨hk2, hc2, ht2⟩ := ih (f c memo log).2.1 (f c memo log).2.2 hc1
    refine ⟨?_, ?_, ?_⟩
    · intro k hk
      simp only [explore_children]
      exact hk2 k (hk1 k hk)
    · simpa [explore_children] using hc2
    · intro e he
      simp only [explore_children, treeConceptsList_cons, List.mem_append] at he
      simp only [explore_children]
      rcases he with he | he
      · exact hk2 e (ht1 e he)
      · exact ht2 e he

theorem explore_go_closed (svc : Service) (maxD : Nat) :
    ∀ (fuel : Nat) (c : String) (memo : Memo) (log : List Request),
      MemoClosed memo →
      (∀ k ∈ memoKeys memo,
         k ∈ memoKeys (explore_go svc maxD fuel c memo log).2.1) ∧
      MemoClosed (explore_go svc maxD fuel c memo log).2.1 ∧
      (∀ e ∈ treeConcepts (explore_go svc maxD fuel c memo log).1,
         e ∈ memoKeys (explore_go svc maxD fuel c memo log).2.1) := by
  intro fuel
  induction fuel with
  | zero =>
    intro c memo log hmemo
    rcases hml : memoLookup memo c with _ | node
    · rw [explore_go_miss_zero svc maxD c memo log hml]
      refine ⟨?_, ?_, ?_⟩
      · intro k hk
        rw [memoKeys_cons]
        exact List.mem_cons_of_mem _ hk
      · refine memoClosed_cons c _ memo hmemo ?_
        intro e he
        rw [treeConcepts_leaf] at he
        simp at he
        subst he
        simp [memoKeys_cons]
      · intro e he
        rw [treeConcepts_leaf] at he
        simp at he
        subst he
        simp [memoKeys_cons]
    · rw [explore_go_hit svc maxD 0 c memo log node hml]
      obtain ⟨k, hk⟩ := memoLookup_mem memo c node hml
      exact ⟨fun k hk => hk, hmemo, hmemo (k, node) hk⟩
  | succ fuel' ih =>
    intro c memo log hmemo
    rcases hml : memoLookup memo c with _ | node
    · rcases hF : (svc.is_foundational c).getD true with _ | _
      case false =>
        rcases hP : svc.prerequisite_list c with _ | ps
        · rw [explore_go_miss_prereq_fail svc maxD fuel' c memo log hml hF hP]
          refine ⟨?_, ?_, ?_⟩
          · intro k hk
            rw [memoKeys_cons]
            exact List.mem_cons_of_mem _ hk
          · refine memoClosed_cons c _ memo hmemo ?_
            intro e he
            rw [treeConcepts_leaf] at he
            simp at he
            subst he
            simp [memoKeys_cons]
          · intro e he
            rw [treeConcepts_leaf] at he
            simp at he
            subst he
            simp [memoKeys_cons]
        · rw [explore_go_miss_expand svc maxD fuel' c memo log ps hml hF hP]
          obtain ⟨hk1, hc1, ht1⟩ := explore_children_closed
            (fun c' m' l' => explore_go svc maxD fuel' c' m' l')
            (fun c' memo' log' h => ih c' memo' log' h) ps memo
            (log ++ [Request.foundational_check c, Request.prereq_request c])
            hmemo
          have htree : ∀ e ∈ treeConcepts
              (KnowledgeNode.mk c (maxD - (fuel' + 1)) false
                (explore_children (fun c' m' l' => explore_go svc maxD fuel' c' m' l')
                  ps memo
                  (log ++ [Request.foundational_check c, Request.prereq_request c])).1
                none none none none),
              e ∈ memoKeys ((c, KnowledgeNode.mk c (maxD - (fuel' + 1)) false
                (explore_children (fun c' m' l' => explore_go svc maxD fuel' c' m' l')
                  ps memo
                  (log ++ [Request.foundational_check c, Request.prereq_request c])).1
                none none none none) ::
                (explore_children (fun c' m' l' => explore_go svc maxD fuel' c' m' l')
                  ps memo
                  (log ++ [Request.foundational_check c, Request.prereq_request c])).2.1) := by
            intro e he
            rw [treeConcepts_mk] at he
            rw [memoKeys_cons]
            rcases List.mem_cons.mp he with he | he
            · subst he
              exact List.mem_cons_self _ _
            · exact List.mem_cons_of_mem _ (ht1 e he)
          refine ⟨?_, ?_, ?_⟩
          · intro k hk
            rw [memoKeys_cons]
            exact List.mem_cons_of_mem _ (hk1 k hk)
          · exact memoClosed_cons c _ _ hc1 htree
          · exact htree
      case true =>
        rw [explore_go_miss_found svc maxD fuel' c memo log hml hF]
        refine ⟨?_, ?_, ?_⟩
        · intro k hk
          rw [memoKeys_cons]
          exact List.mem_cons_of_mem _ hk
        · refine memoClosed_cons c _ memo hmemo ?_
          intro e he
          rw [treeConcepts_leaf] at he
          simp at he
          subst he
          simp [memoKeys_cons]
        · intro e he
          rw [treeConcepts_leaf] at he
          simp at he
          subst he
          simp [memoKeys_cons]
    · rw [explore_go_hit svc maxD (fuel' + 1) c memo log node hml]
      obtain ⟨k, hk⟩ := memoLookup_mem memo c node hml
      exact ⟨fun k hk => hk, hmemo, hmemo (k, node) hk⟩

theorem memoClosed_nil : MemoClosed [] := by
  intro p hp
  simp at hp

theorem svcAllFoundational_acyclic : AcyclicService svcAllFoundational := by
  intro c h
  cases h with
  | single hrel => simp [serviceRel, prereqsOf, svcAllFoundational] at hrel
  | tail h2 hrel => simp [serviceRel, prereqsOf, svcAllFoundational] at hrel

/-- C3 counterexample: with a service whose prerequisite graph has a
self-loop (every concept lists "A" as prerequisite), the concept "A"
appears twice in the explored tree yet receives two foundational-check
requests: when "A" is re-reached inside its own still-unfinished
exploration it is not yet memoized, so the memo is not hit. -/
theorem explore_cyclic_double_check :
    (treeConcepts (explore svcSelfLoop "A" 1).1).count "A" = 2 ∧
    countFound (explore svcSelfLoop "A" 1).2.2 "A" = 2 := by
  refine ⟨by decide, by decide⟩

/-- C3 (amended): when the service's prerequisite relation is acyclic —
the spec leaves cyclic graphs an explicit open question, and on a cycle a
concept is re-explored before it is memoized — every concept occurring in
the explored tree (in particular every concept occurring more than once)
receives exactly one foundational-check request and at most one
list-prerequisites request; repeated occurrences are served from the memo
with no new service call. -/
theorem explore_acyclic_unique_requests (svc : Service) (c0 : String)
    (maxD : Nat) (hA : AcyclicService svc) (d : String)
    (hd : d ∈ treeConcepts (explore svc c0 maxD).1) :
    countFound (explore svc c0 maxD).2.2 d = 1 ∧
    countPrereq (explore svc c0 maxD).2.2 d ≤ 1 := by
  unfold explore at hd ⊢
  have hclosed := explore_go_closed svc maxD maxD c0 [] [] memoClosed_nil
  obtain ⟨a, b, cC, dC, e, f⟩ := explore_go_counts svc maxD hA maxD c0 [] []
  have hkey := hclosed.2.2 d hd
  rcases f d hkey with h | h
  · simp [memoKeys] at h
  · have h0 : countFound ([] : List Request) d = 0 := rfl
    have hP0 : countPrereq ([] : List Request) d = 0 := rfl
    have hdC := dC d
    exact ⟨by omega, by omega⟩

theorem explore_acyclic_unique_requests_witness :
    countFound (explore svcAllFoundational "X" 1).2.2 "X" = 1 ∧
    countPrereq (explore svcAllFoundational "X" 1).2.2 "X" ≤ 1 :=
  explore_acyclic_unique_requests svcAllFoundational "X" 1
    svcAllFoundational_acyclic "X" (by decide)

/-- C6 counterexample: in the 3D visual-design stage, a node whose chat
response is unparseable does not keep `visual_spec = None`: the code
substitutes the empty payload via `or` with an empty dict, builds a spec
from it, and
assigns a dict to the node, so the field ends up as an empty-but-valid
mapping rather than staying unset. -/
theorem design_sets_spec_on_parse_failure :
    plainNode.visual_spec = none ∧
    envUnparseable.payload_for "minimal surfaces" = none ∧
    (design_node envUnparseable plainNode none []).1.visual_spec = some .nil := by
  refine ⟨by decide, by decide, by decide⟩

mutual

/-- C6 (amended): the 3D visual-design stage processes every node of the
tree to completion and always leaves `visual_spec` a non-None mapping —
even when the service response for a node is empty or unparseable (the
payload then defaults to the empty dict) — rather than leaving the field
unset; this holds for every behaviour of the missing
`VisualSpec.from_payload`/`to_dict` helpers. -/
theorem design_node_spec_set : ∀ (env : DesignEnv) (n : KnowledgeNode)
    (parent : Option JsonObj) (cache : List (String × JsonObj)),
    ∀ m ∈ allNodes (design_node env n parent cache).1, m.visual_spec ≠ none
  | env, .mk c d f pr eq df vs na, parent, cache => by
    intro m hm
    rcases hcl : (cache.find? (fun p => p.1 == c)).map (fun p => p.2) with _ | cached
    · simp only [design_node, hcl] at hm
      simp only [allNodes, List.mem_cons] at hm
      rcases hm with hm | hm
      · subst hm
        simp [KnowledgeNode.visual_spec]
      · exact design_list_spec_set env pr _ _ m hm
    · simp only [design_node, hcl] at hm
      simp only [allNodes, List.mem_cons] at hm
      rcases hm with hm | hm
      · subst hm
        simp [KnowledgeNode.visual_spec]
      · exact design_list_spec_set env pr _ _ m hm

theorem design_list_spec_set : ∀ (env : DesignEnv) (l : NodeList)
    (parent : Option JsonObj) (cache : List (String × JsonObj)),
    ∀ m ∈ allNodesList (design_list env l parent cache).1, m.visual_spec ≠ none
  | env, .nil, parent, cache => by
    intro m hm
    simp [design_list, allNodesList] at hm
  | env, .cons n tl, parent, cache => by
    intro m hm
    simp only [design_list] at hm
    simp only [allNodesList, List.mem_append] at hm
    rcases hm with hm | hm
    · exact design_node_spec_set env n parent cache m hm
    · exact design_list_spec_set env tl parent _ m hm

end

theorem design_node_spec_set_witness :
    (KnowledgeNode.mk "minimal surfaces" 0 false .nil none none (some .nil) none).visual_spec ≠ none :=
  design_node_spec_set envUnparseable plainNode none []
    (KnowledgeNode.mk "minimal surfaces" 0 false .nil none none (some .nil) none)
    (by decide)

/-- C9: `validate_sandbox_config` returns `True` exactly when the API key
is non-empty, the thinking mode and render quality are among the allowed
literals, and `max_depth` lies in `[1, 10]`; in every other case it raises
`ValueError` (it never returns `False`).  The Python function only reads
attributes, so the config value is unchanged: the embedding is a pure
function of the config. -/
theorem validate_sandbox_config_correct (c : SandboxConfig) :
    (validate_sandbox_config c = .ok true ↔
      (c.moonshot_api_key ≠ "" ∧
       c.thinking_mode ∈ (["heavy", "medium", "light", "true", "false"] : List String) ∧
       c.manim_quality ∈ (["l", "m", "h", "k"] : List String) ∧
       1 ≤ c.max_depth ∧ c.max_depth ≤ 10)) ∧
    (validate_sandbox_config c = .ok true ∨
      ∃ e, validate_sandbox_config c = .error e) := by
  by_cases h1 : c.moonshot_api_key = ""
  · unfold validate_sandbox_config
    rw [if_pos h1]
    exact ⟨⟨fun h => absurd h (by simp), fun hc => absurd h1 hc.1⟩, Or.inr ⟨_, rfl⟩⟩
  by_cases h2 : c.thinking_mode ∈ (["heavy", "medium", "light", "true", "false"] : List String)
  case neg =>
    unfold validate_sandbox_config
    rw [if_neg h1, if_pos h2]
    exact ⟨⟨fun h => absurd h (by simp), fun hc => absurd hc.2.1 h2⟩, Or.inr ⟨_, rfl⟩⟩
  by_cases h3 : c.manim_quality ∈ (["l", "m", "h", "k"] : List String)
  case neg =>
    unfold validate_sandbox_config
    rw [if_neg h1, if_neg (not_not_intro h2), if_pos h3]
    exact ⟨⟨fun h => absurd h (by simp), fun hc => absurd hc.2.2.1 h3⟩, Or.inr ⟨_, rfl⟩⟩
  by_cases h4 : c.max_depth < 1 ∨ c.max_depth > 10
  · unfold validate_sandbox_config
    rw [if_neg h1, if_neg (not_not_intro h2), if_neg (not_not_intro h3), if_pos h4]
    refine ⟨⟨fun h => absurd h (by simp), fun hc => ?_⟩, Or.inr ⟨_, rfl⟩⟩
    exfalso
    obtain ⟨_, _, _, hd1, hd2⟩ := hc
    omega
  · unfold validate_sandbox_config
    rw [if_neg h1, if_neg (not_not_intro h2), if_neg (not_not_intro h3), if_neg h4]
    exact ⟨⟨fun _ => ⟨h1, h2, h3, by omega, by omega⟩, fun _ => rfl⟩, Or.inl rfl⟩

theorem validate_sandbox_config_correct_witness :
    validate_sandbox_config { moonshot_api_key := "sk-test" } = .ok true ∧
    ∃ e, validate_sandbox_config { moonshot_api_key := "" } = .error e :=
  ⟨(validate_sandbox_config_correct { moonshot_api_key := "sk-test" }).1.mpr
      (by refine ⟨by decide, by decide, by decide, by decide, by decide⟩),
   by
    rcases (validate_sandbox_config_correct { moonshot_api_key := "" }).2 with h | h
    · exact absurd ((validate_sandbox_config_correct _).1.mp h).1 (by decide)
    · exact h⟩

/-- C10: `SandboxConfig.to_dict` never reveals the API key: two configs
that agree everywhere else and whose keys are both empty or both
non-empty serialize to identical dictionaries, and the emitted entry is
the constant `"***"` for a non-empty key and `None` for an empty one. -/
theorem to_dict_masks_api_key :
    (∀ (c : SandboxConfig) (k1 k2 : String),
      ((k1 = "" ∧ k2 = "") ∨ (k1 ≠ "" ∧ k2 ≠ "")) →
      SandboxConfig.to_dict { c with moonshot_api_key := k1 } =
        SandboxConfig.to_dict { c with moonshot_api_key := k2 }) ∧
    (∀ c : SandboxConfig,
      (SandboxConfig.to_dict c).lookup "moonshot_api_key" =
        some (if c.moonshot_api_key = "" then Json.null else Json.str "***")) := by
  constructor
  · intro c k1 k2 h
    rcases h with ⟨h1, h2⟩ | ⟨h1, h2⟩ <;>
      simp [SandboxConfig.to_dict, h1, h2]
  · intro c
    simp [SandboxConfig.to_dict, JsonObj.lookup]

theorem to_dict_masks_api_key_witness :
    SandboxConfig.to_dict { moonshot_api_key := "sk-alpha" } =
      SandboxConfig.to_dict { moonshot_api_key := "sk-beta" } ∧
    (SandboxConfig.to_dict { moonshot_api_key := "sk-alpha" }).lookup "moonshot_api_key" =
      some (if ("sk-alpha" : String) = "" then Json.null else Json.str "***") :=
  ⟨to_dict_masks_api_key.1 { moonshot_api_key := "sk-alpha" } "sk-alpha" "sk-beta"
      (Or.inr ⟨by decide, by decide⟩),
   to_dict_masks_api_key.2 { moonshot_api_key := "sk-alpha" }⟩

/-- C8: a pipeline run invokes the Explorer and then the three enrichment
stages in order (the non-write prefix of the trace), writes exactly the
two output files — the serialized enriched tree JSON and the narrative
text file, both named after the topic — and the script's exit code is
non-zero exactly when an exception escapes the run. -/
theorem pipeline_trace_and_exit (concept : String) :
    (run_pipeline_trace concept).filter PipelineEvent.isWrite =
      [.write_file (slugify concept ++ "_enriched.json"),
       .write_file (slugify concept ++ "_narrative.txt")] ∧
    (run_pipeline_trace concept).filter (fun e => !e.isWrite) =
      [.explore_stage concept, .math_stage, .visual_stage, .narrative_stage] ∧
    (∀ o : Except String (List PipelineEvent),
      pipeline_exit_code o ≠ 0 ↔ ∃ e, o = .error e) := by
  refine ⟨?_, ?_, ?_⟩
  · simp [run_pipeline_trace, PipelineEvent.isWrite]
  · simp [run_pipeline_trace, PipelineEvent.isWrite]
  · intro o
    cases o with
    | ok tr => simp [pipeline_exit_code]
    | error e => simp [pipeline_exit_code]

theorem pipeline_trace_and_exit_witness :
    (run_pipeline_trace "pythagorean theorem").filter PipelineEvent.isWrite =
      [.write_file "pythagorean_theorem_enriched.json",
       .write_file "pythagorean_theorem_narrative.txt"] ∧
    pipeline_exit_code (.error "boom") ≠ 0 :=
  ⟨by
    have h := (pipeline_trace_and_exit "pythagorean theorem").1
    rw [show slugify "pythagorean theorem" = "pythagorean_theorem" from by decide] at h
    exact h,
   ((pipeline_trace_and_exit "x").2.2 (.error "boom")).mpr ⟨"boom", rfl⟩⟩
